import Mathlib

/-!
# svgcleaner: application bootstrap (`src/main.cpp`)

A shallow embedding of `main` from `src/main.cpp`.

* A `QString` is a finite sequence of `QChar`s; it is embedded as a `List Char`,
  every list element standing for one `QChar`.
* `QRegExp("_..")` is embedded as a list of single-character pattern atoms, and
  `QString::remove(const QRegExp &)` as the left-to-right scan that deletes every
  non-overlapping match (the search for the next match restarts right behind the
  previous match).
* The toolkit calls made by `main` are embedded as an explicit, ordered trace of
  effects; what the environment answers (the system locale name, whether
  `QTranslator::load` succeeds for a path, what `QApplication::exec` returns) is a
  parameter of the run.
-/

namespace SvgCleaner

/-! ## Strings and the regular expression -/

/-- A `QString`: a sequence of `QChar`s, one list element per `QChar`. -/
abbrev QString := List Char

/-- One atom of a `QRegExp` pattern built from single-character items only:
a literal character, or `.` which matches any one character. -/
inductive Atom where
  | chr (c : Char)
  | dot
  deriving DecidableEq, Repr

/-- Does the atom match the character? -/
def Atom.accepts : Atom → Char → Bool
  | Atom.chr c, d => c == d
  | Atom.dot, _ => true

/-- Does the pattern match at the very start of the string?  A pattern of `n`
atoms matches exactly the next `n` characters, so the matched length is the
length of the pattern. -/
def matchesAt : List Atom → QString → Bool
  | [], _ => true
  | _ :: _, [] => false
  | a :: as, c :: cs => a.accepts c && matchesAt as cs

/-- The scan loop of `QString::replace(rx, QString())`, which is what
`QString::remove(rx)` calls.  The first argument counts the characters of the
current match that are still to be dropped (`index += matchedLength`); when it
is zero the pattern is tried at the current position, and a position where it
does not match is kept and the scan moves on by one character.  An empty
pattern only has empty matches, whose removal changes nothing. -/
def removeScan (rx : List Atom) : Nat → QString → QString
  | _, [] => []
  | skip + 1, _ :: cs => removeScan rx skip cs
  | 0, c :: cs =>
    if rx ≠ [] ∧ matchesAt rx (c :: cs) = true then removeScan rx (rx.length - 1) cs
    else c :: removeScan rx 0 cs

/-- The call `s.remove(rx)`. -/
def QString.remove (s : QString) (rx : List Atom) : QString :=
  removeScan rx 0 s

/-- The pattern `QRegExp("_..")`: an underscore followed by any two characters. -/
def rxUnderscoreDotDot : List Atom :=
  [Atom.chr '_', Atom.dot, Atom.dot]

/-- The suffix `QLocale::system().name().remove(QRegExp("_.."))` computed by
`main` from the system locale name. -/
def localeSuffix (name : QString) : QString :=
  QString.remove name rxUnderscoreDotDot

/-- The string literal `"/usr/share/svgcleaner/translations/svgcleaner"`. -/
def translationBase : QString :=
  "/usr/share/svgcleaner/translations/svgcleaner".toList

/-- The argument of `translator->load(...)`: the literal followed directly by
the suffix. -/
def translationPath (name : QString) : QString :=
  translationBase ++ localeSuffix name

/-- The reading of "everything from the first underscore (inclusive) to the end
removed": the longest prefix without an underscore. -/
def truncateAtUnderscore (s : QString) : QString :=
  s.takeWhile (fun c => c != '_')

/-! ## The effects of `main` -/

/-- One toolkit call made by `main`, with its arguments and, where `main` uses
it, its answer. -/
inductive Effect where
  /-- The statement `QApplication a(argc, argv)`. -/
  | appInit (args : List String)
  /-- The call `QTextCodec::setCodecForCStrings(QTextCodec::codecForName(name))`. -/
  | setCodecForCStrings (codecName : String)
  /-- The call `QTextCodec::setCodecForLocale(QTextCodec::codecForName(name))`. -/
  | setCodecForLocale (codecName : String)
  /-- The call `QTextCodec::setCodecForTr(QTextCodec::codecForName(name))`. -/
  | setCodecForTr (codecName : String)
  /-- The expression `new QTranslator`. -/
  | newTranslator
  /-- The call `translator->load(path)` and its answer. -/
  | load (path : QString) (ok : Bool)
  /-- The call `qApp->installTranslator(translator)`. -/
  | installTranslator
  /-- The statement `qDebug() << msg`. -/
  | qDebug (msg : String)
  /-- The statement `MainWindow w`. -/
  | windowConstruct
  /-- The call `w.show()`. -/
  | windowShow
  /-- The call `a.exec()` and the value it returns. -/
  | exec (ret : Int)
  deriving DecidableEq, Repr

def Effect.isAppInit : Effect → Bool
  | Effect.appInit _ => true
  | _ => false

def Effect.isSetCodec : Effect → Bool
  | Effect.setCodecForCStrings _ => true
  | Effect.setCodecForLocale _ => true
  | Effect.setCodecForTr _ => true
  | _ => false

def Effect.isLoad : Effect → Bool
  | Effect.load _ _ => true
  | _ => false

def Effect.isInstall : Effect → Bool
  | Effect.installTranslator => true
  | _ => false

def Effect.isDebug : Effect → Bool
  | Effect.qDebug _ => true
  | _ => false

def Effect.isWindowConstruct : Effect → Bool
  | Effect.windowConstruct => true
  | _ => false

def Effect.isWindowShow : Effect → Bool
  | Effect.windowShow => true
  | _ => false

def Effect.isExec : Effect → Bool
  | Effect.exec _ => true
  | _ => false

/-- What the environment of one run of `main` supplies. -/
structure World where
  /-- The process arguments `argv[0 .. argc-1]`. -/
  args : List String
  /-- The value of `QLocale::system().name()`. -/
  localeName : QString
  /-- The answer of `QTranslator::load` for a given file name. -/
  loadOk : QString → Bool
  /-- The value `a.exec()` returns when the event loop ends. -/
  execResult : Int

/-- One run of `main`: the effects in the order they happen, and the value
`main` returns. -/
structure Run where
  trace : List Effect
  exitCode : Int

/-- The function `main` of `src/main.cpp`, statement by statement. -/
def main (w : World) : Run :=
  -- QApplication a(argc, argv);
  let t : List Effect := [Effect.appInit w.args]
  -- QTextCodec::setCodecFor...(QTextCodec::codecForName("UTF-8"));
  let t := t ++ [Effect.setCodecForCStrings "UTF-8"]
  let t := t ++ [Effect.setCodecForLocale "UTF-8"]
  let t := t ++ [Effect.setCodecForTr "UTF-8"]
  -- QTranslator *translator = new QTranslator;
  let t := t ++ [Effect.newTranslator]
  -- if (translator->load("/usr/share/..." + QLocale::system().name().remove(QRegExp("_.."))))
  let path := translationPath w.localeName
  let ok := w.loadOk path
  let t := t ++ [Effect.load path ok]
  let t :=
    if ok then
      -- qApp->installTranslator(translator);
      t ++ [Effect.installTranslator]
    else
      -- qDebug()<<"Can't load translation.";
      t ++ [Effect.qDebug "Can't load translation."]
  -- MainWindow w;
  let t := t ++ [Effect.windowConstruct]
  -- w.show();
  let t := t ++ [Effect.windowShow]
  -- return a.exec();
  let r := w.execResult
  { trace := t ++ [Effect.exec r], exitCode := r }

/-- Every effect of kind `p` in the trace happens strictly before every effect
of kind `q` in the trace. -/
def Precedes (p q : Effect → Bool) (t : List Effect) : Prop :=
  ∀ (i j : Nat) (a b : Effect), t[i]? = some a → t[j]? = some b →
    p a = true → q b = true → i < j

/-- A computable test for `Precedes`. -/
def precedesB (p q : Effect → Bool) : List Effect → Bool
  | [] => true
  | e :: t => (!(q e) || (!(p e) && t.all (fun x => !(p x)))) && precedesB p q t

/-- A world in which the system locale is `fr_CA` and the translation file is
present. -/
def worldFrCA : World :=
  { args := ["svgcleaner"], localeName := "fr_CA".toList, loadOk := fun _ => true,
    execResult := 0 }

/-! ## Basic facts about the scan -/

theorem removeScan_skip (rx : List Atom) (k : Nat) (s : QString) :
    removeScan rx k s = removeScan rx 0 (s.drop k) := by
  induction s generalizing k with
  | nil => cases k <;> simp [removeScan]
  | cons c cs ih =>
    cases k with
    | zero => simp
    | succ k => simp only [removeScan, List.drop_succ_cons]; exact ih k

theorem localeSuffix_nil : localeSuffix [] = [] := rfl

theorem localeSuffix_match (a b : Char) (rest : QString) :
    localeSuffix ('_' :: a :: b :: rest) = localeSuffix rest := by
  simp [localeSuffix, QString.remove, removeScan, rxUnderscoreDotDot, matchesAt,
    Atom.accepts, removeScan_skip _ 2]

theorem localeSuffix_keep (c : Char) (cs : QString) (h : c ≠ '_') :
    localeSuffix (c :: cs) = c :: localeSuffix cs := by
  have h2 : ¬ ('_' = c) := fun e => h e.symm
  simp [localeSuffix, QString.remove, removeScan, rxUnderscoreDotDot, matchesAt,
    Atom.accepts, h2]

theorem localeSuffix_short (s : QString) (h : s.length < 3) : localeSuffix s = s := by
  match s, h with
  | [], _ => rfl
  | [c], _ =>
    simp [localeSuffix, QString.remove, removeScan, rxUnderscoreDotDot, matchesAt]
  | [c, d], _ =>
    simp [localeSuffix, QString.remove, removeScan, rxUnderscoreDotDot, matchesAt]

/-- Case analysis that follows the scan: the empty string, a kept character, a
removed match, and an underscore with fewer than two characters behind it. -/
theorem suffix_cases {P : QString → Prop}
    (hnil : P [])
    (hkeep : ∀ c cs, c ≠ '_' → P cs → P (c :: cs))
    (hmatch : ∀ a b rest, P rest → P ('_' :: a :: b :: rest))
    (hshort : ∀ t : QString, t.length < 2 → P ('_' :: t))
    (s : QString) : P s := by
  suffices H : ∀ n (s : QString), s.length = n → P s from H _ s rfl
  intro n
  induction n using Nat.strong_induction_on with
  | _ n ih =>
    intro s h
    match s, h with
    | [], _ => exact hnil
    | c :: cs, h =>
      by_cases hc : c = '_'
      · subst hc
        match cs, h with
        | [], _ => exact hshort [] (by simp)
        | [a], _ => exact hshort [a] (by simp)
        | a :: b :: rest, h =>
          exact hmatch a b rest (ih rest.length (by simp at h; omega) rest rfl)
      · exact hkeep c cs hc (ih cs.length (by simp at h; omega) cs rfl)

theorem localeSuffix_append_of_no_underscore (p s : QString) (hp : '_' ∉ p) :
    localeSuffix (p ++ s) = p ++ localeSuffix s := by
  induction p with
  | nil => rfl
  | cons c cs ih =>
    have hc : c ≠ '_' := fun e => hp (by simp [e])
    have hcs : '_' ∉ cs := fun e => hp (by simp [e])
    rw [List.cons_append, localeSuffix_keep _ _ hc, ih hcs, List.cons_append]

/-- The result of the scan is an underscore-free part followed by at most two
characters. -/
theorem localeSuffix_shape (s : QString) :
    ∃ q r : QString, localeSuffix s = q ++ r ∧ '_' ∉ q ∧ r.length ≤ 2 := by
  induction s using suffix_cases with
  | hnil => exact ⟨[], [], rfl, by simp, by simp⟩
  | hkeep c cs hc ih =>
    obtain ⟨q, r, h1, h2, h3⟩ := ih
    refine ⟨c :: q, r, ?_, ?_, h3⟩
    · rw [localeSuffix_keep _ _ hc, h1]; rfl
    · simp only [List.mem_cons, not_or]; exact ⟨fun e => hc e.symm, h2⟩
  | hmatch a b rest ih => rw [localeSuffix_match]; exact ih
  | hshort t ht =>
    exact ⟨[], '_' :: t, by rw [localeSuffix_short _ (by simp; omega)]; rfl, by simp,
      by simp; omega⟩

/-! ## The trace of `main` -/

theorem precedes_iff (p q : Effect → Bool) (t : List Effect) :
    Precedes p q t ↔ precedesB p q t = true := by
  induction t with
  | nil => simp [Precedes, precedesB]
  | cons e t ih =>
    simp only [precedesB, Bool.and_eq_true, ← ih]
    constructor
    · intro H
      refine ⟨?_, ?_⟩
      · cases hq : q e with
        | false => simp
        | true =>
          have hpe : p e = false := by
            cases hp : p e with
            | false => rfl
            | true => exact absurd (H 0 0 e e (by simp) (by simp) hp hq) (by omega)
          have hall : t.all (fun x => !(p x)) = true := by
            rw [List.all_eq_true]
            intro x hx
            obtain ⟨n, hn⟩ := List.mem_iff_getElem?.mp hx
            cases hp : p x with
            | false => rfl
            | true =>
              exact absurd (H (n + 1) 0 x e (by simpa using hn) (by simp) hp hq) (by omega)
          simp [hpe, hall]
      · intro i j a b hi hj hp hq
        have := H (i + 1) (j + 1) a b (by simpa using hi) (by simpa using hj) hp hq
        omega
    · rintro ⟨h1, h2⟩ i j a b hi hj hp hq
      cases j with
      | succ j =>
        cases i with
        | zero => omega
        | succ i =>
          have := h2 i j a b (by simpa using hi) (by simpa using hj) hp hq
          omega
      | zero =>
        exfalso
        simp only [List.getElem?_cons_zero, Option.some.injEq] at hj
        subst hj
        simp only [hq, Bool.not_true, Bool.false_or, Bool.and_eq_true, Bool.not_eq_true',
          List.all_eq_true] at h1
        cases i with
        | zero =>
          simp only [List.getElem?_cons_zero, Option.some.injEq] at hi
          subst hi
          rw [h1.1] at hp
          exact Bool.noConfusion hp
        | succ i =>
          simp only [List.getElem?_cons_succ] at hi
          have := h1.2 a (List.getElem?_mem hi)
          rw [this] at hp
          exact Bool.noConfusion hp

/-- The trace of `main`, written out. -/
theorem main_trace (w : World) :
    (main w).trace =
      [Effect.appInit w.args, Effect.setCodecForCStrings "UTF-8",
        Effect.setCodecForLocale "UTF-8", Effect.setCodecForTr "UTF-8",
        Effect.newTranslator,
        Effect.load (translationPath w.localeName) (w.loadOk (translationPath w.localeName)),
        if w.loadOk (translationPath w.localeName) = true then Effect.installTranslator
        else Effect.qDebug "Can't load translation.",
        Effect.windowConstruct, Effect.windowShow, Effect.exec w.execResult] := by
  cases h : w.loadOk (translationPath w.localeName) <;> simp [main, h]

/-! ## The locale suffix -/

/-- C1 (code defect): `main` strips the country part of the locale name, but for
the locale name `es_419`, whose country code has three characters, the suffix it
computes is `es9`, whereas removing everything from the first underscore
(inclusive) to the end of the string leaves `es`. -/
theorem localeSuffix_es_419 :
    localeSuffix "es_419".toList = "es9".toList ∧
    truncateAtUnderscore "es_419".toList = "es".toList ∧
    localeSuffix "es_419".toList ≠ truncateAtUnderscore "es_419".toList := by
  decide

/-- C8: for a locale name `p ++ "_" ++ c1 c2` in which `p` has no underscore the
suffix is exactly `p`, the path is the fixed string followed by `p`, and that is
the path `main` passes to `load`. -/
theorem localeSuffix_language_country (p : QString) (c1 c2 : Char) (hp : '_' ∉ p) :
    localeSuffix (p ++ '_' :: [c1, c2]) = p ∧
    translationPath (p ++ '_' :: [c1, c2]) =
      "/usr/share/svgcleaner/translations/svgcleaner".toList ++ p ∧
    ∀ w : World, w.localeName = p ++ '_' :: [c1, c2] →
      (main w).trace.filter Effect.isLoad =
        [Effect.load ("/usr/share/svgcleaner/translations/svgcleaner".toList ++ p)
          (w.loadOk ("/usr/share/svgcleaner/translations/svgcleaner".toList ++ p))] := by
  have h1 : localeSuffix (p ++ '_' :: [c1, c2]) = p := by
    rw [localeSuffix_append_of_no_underscore _ _ hp, localeSuffix_match, localeSuffix_nil,
      List.append_nil]
  have h2 : translationPath (p ++ '_' :: [c1, c2]) =
      "/usr/share/svgcleaner/translations/svgcleaner".toList ++ p := by
    rw [translationPath, h1]; rfl
  refine ⟨h1, h2, ?_⟩
  intro w hw
  rw [main_trace, hw, h2]
  split <;> simp [Effect.isLoad]

/-- Witness of C8 at the locale name `de_DE`. -/
theorem localeSuffix_language_country_witness :
    '_' ∉ "de".toList ∧ localeSuffix ("de".toList ++ '_' :: ['D', 'E']) = "de".toList :=
  ⟨by decide, (localeSuffix_language_country "de".toList 'D' 'E' (by decide)).1⟩

/-- C9: for a locale name without an underscore the suffix is the name itself. -/
theorem localeSuffix_no_underscore (L : QString) (h : '_' ∉ L) : localeSuffix L = L := by
  have := localeSuffix_append_of_no_underscore L [] h
  simpa [localeSuffix_nil] using this

/-- Witness of C9 at the locale name `en`. -/
theorem localeSuffix_no_underscore_witness :
    '_' ∉ "en".toList ∧ localeSuffix "en".toList = "en".toList :=
  ⟨by decide, localeSuffix_no_underscore "en".toList (by decide)⟩

/-- C10: in the suffix every underscore lies within the last two positions, so no
underscore of the suffix is followed by two or more characters, and computing the
suffix of the suffix returns it unchanged. -/
theorem localeSuffix_idempotent (L : QString) :
    (∀ i : Nat, (localeSuffix L)[i]? = some '_' → (localeSuffix L).length ≤ i + 2) ∧
    (∀ (pre rest : QString) (a b : Char), localeSuffix L ≠ pre ++ '_' :: a :: b :: rest) ∧
    localeSuffix (localeSuffix L) = localeSuffix L := by
  obtain ⟨q, r, hqr, hq, hr⟩ := localeSuffix_shape L
  have hidx : ∀ i : Nat, (localeSuffix L)[i]? = some '_' →
      (localeSuffix L).length ≤ i + 2 := by
    intro i hi
    rw [hqr] at hi ⊢
    by_cases hlt : i < q.length
    · rw [List.getElem?_append_left hlt] at hi
      exact absurd (List.getElem?_mem hi) hq
    · simp only [List.length_append]; omega
  refine ⟨hidx, ?_, ?_⟩
  · intro pre rest a b h
    have h1 : (localeSuffix L)[pre.length]? = some '_' := by
      rw [h, List.getElem?_append_right (Nat.le_refl _)]; simp
    have h2 := hidx _ h1
    rw [h] at h2
    simp at h2
  · rw [hqr, localeSuffix_append_of_no_underscore _ _ hq,
      localeSuffix_short r (by omega)]

/-- Witness of C10 at the string `a_bc_`, whose suffix `a_` keeps an underscore in
its last position. -/
theorem localeSuffix_idempotent_witness :
    (localeSuffix "a_bc_".toList)[1]? = some '_' ∧
    (localeSuffix "a_bc_".toList).length ≤ 1 + 2 :=
  ⟨by decide, (localeSuffix_idempotent "a_bc_".toList).1 1 (by decide)⟩

/-! ## The startup sequence -/

/-- C2: `main` calls `load` once, and exactly one of two outcomes follows it:
the load succeeded, the translator is installed once and nothing is written to
the debug channel; or the load failed, no translator is installed and the one
message written to the debug channel is "Can't load translation.". -/
theorem main_load_outcome (w : World) :
    (main w).trace.filter Effect.isLoad =
      [Effect.load (translationPath w.localeName)
        (w.loadOk (translationPath w.localeName))] ∧
    Precedes Effect.isLoad Effect.isInstall (main w).trace ∧
    Precedes Effect.isLoad Effect.isDebug (main w).trace ∧
    ((w.loadOk (translationPath w.localeName) = true ∧
        (main w).trace.countP Effect.isInstall = 1 ∧
        (main w).trace.countP Effect.isDebug = 0) ∨
      (w.loadOk (translationPath w.localeName) = false ∧
        (main w).trace.countP Effect.isInstall = 0 ∧
        (main w).trace.countP Effect.isDebug = 1 ∧
        (main w).trace.count (Effect.qDebug "Can't load translation.") = 1)) := by
  simp only [precedes_iff, main_trace]
  cases h : w.loadOk (translationPath w.localeName) <;>
    simp [precedesB, Effect.isLoad, Effect.isInstall, Effect.isDebug]

/-- C3: whatever the locale name and whatever the outcome of the load, `main`
constructs the main window once, shows it once and then enters the event loop
once, all after the load attempt. -/
theorem main_window_shown (w : World) :
    (main w).trace.countP Effect.isWindowConstruct = 1 ∧
    (main w).trace.countP Effect.isWindowShow = 1 ∧
    (main w).trace.countP Effect.isExec = 1 ∧
    Precedes Effect.isLoad Effect.isWindowConstruct (main w).trace ∧
    Precedes Effect.isWindowConstruct Effect.isWindowShow (main w).trace ∧
    Precedes Effect.isWindowShow Effect.isExec (main w).trace := by
  simp only [precedes_iff, main_trace]
  cases h : w.loadOk (translationPath w.localeName) <;>
    simp [precedesB, Effect.isLoad, Effect.isWindowConstruct, Effect.isWindowShow,
      Effect.isExec]

/-- C4: the value `main` returns is the value returned by the one call of
`a.exec()`, which is the last effect of the run. -/
theorem main_exit_code (w : World) :
    (main w).exitCode = w.execResult ∧
    (main w).trace.filter Effect.isExec = [Effect.exec (main w).exitCode] ∧
    (main w).trace.getLast? = some (Effect.exec (main w).exitCode) := by
  have he : (main w).exitCode = w.execResult := rfl
  rw [he, main_trace]
  cases h : w.loadOk (translationPath w.localeName) <;> simp [Effect.isExec]

/-- C5: `main` calls `load` exactly once, and the path it passes is the fixed
string "/usr/share/svgcleaner/translations/svgcleaner" followed directly by the
suffix computed from the locale name. -/
theorem main_load_path (w : World) :
    (main w).trace.filter Effect.isLoad =
      [Effect.load
        ("/usr/share/svgcleaner/translations/svgcleaner".toList ++ localeSuffix w.localeName)
        (w.loadOk
          ("/usr/share/svgcleaner/translations/svgcleaner".toList ++
            localeSuffix w.localeName))] := by
  have hp : translationPath w.localeName =
      "/usr/share/svgcleaner/translations/svgcleaner".toList ++ localeSuffix w.localeName :=
    rfl
  rw [main_trace, hp]
  split <;> simp [Effect.isLoad]

/-- C6: the three codec settings of `main` are, in this order, the codec for C
strings, the codec for the locale and the codec for `tr`, each set to the codec
named "UTF-8"; all of them come after the application object is initialised,
before the load attempt and before the main window is constructed. -/
theorem main_codecs_first (w : World) :
    (main w).trace.filter Effect.isSetCodec =
      [Effect.setCodecForCStrings "UTF-8", Effect.setCodecForLocale "UTF-8",
        Effect.setCodecForTr "UTF-8"] ∧
    (main w).trace.countP Effect.isAppInit = 1 ∧
    (main w).trace.countP Effect.isLoad = 1 ∧
    (main w).trace.countP Effect.isWindowConstruct = 1 ∧
    Precedes Effect.isAppInit Effect.isSetCodec (main w).trace ∧
    Precedes Effect.isSetCodec Effect.isLoad (main w).trace ∧
    Precedes Effect.isSetCodec Effect.isWindowConstruct (main w).trace := by
  simp only [precedes_iff, main_trace]
  cases h : w.loadOk (translationPath w.localeName) <;>
    simp [precedesB, Effect.isSetCodec, Effect.isAppInit, Effect.isLoad,
      Effect.isWindowConstruct]

/-- C7: in a run in which the load succeeds the translator is installed once,
and every installation comes before the main window is constructed, before it is
shown and before the event loop is entered, each of which happens once. -/
theorem main_install_before_window (w : World)
    (h : w.loadOk (translationPath w.localeName) = true) :
    (main w).trace.countP Effect.isInstall = 1 ∧
    (main w).trace.countP Effect.isWindowConstruct = 1 ∧
    (main w).trace.countP Effect.isWindowShow = 1 ∧
    (main w).trace.countP Effect.isExec = 1 ∧
    Precedes Effect.isInstall Effect.isWindowConstruct (main w).trace ∧
    Precedes Effect.isInstall Effect.isWindowShow (main w).trace ∧
    Precedes Effect.isInstall Effect.isExec (main w).trace := by
  simp only [precedes_iff, main_trace]
  simp [h, precedesB, Effect.isInstall, Effect.isWindowConstruct, Effect.isWindowShow,
    Effect.isExec]

/-- Witness of C7 in a world with locale name `fr_CA` whose translation file
loads. -/
theorem main_install_before_window_witness :
    worldFrCA.loadOk (translationPath worldFrCA.localeName) = true ∧
    (main worldFrCA).trace.countP Effect.isInstall = 1 ∧
    Precedes Effect.isInstall Effect.isWindowShow (main worldFrCA).trace :=
  ⟨rfl, (main_install_before_window worldFrCA rfl).1,
    (main_install_before_window worldFrCA rfl).2.2.2.2.2.1⟩

end SvgCleaner
